import Mathlib

/-!
Verification development for the mcp-openapi spec-normalization pipeline.

Part 1 embeds the `allOf`-flattening core of `DefaultSpecProcessor`
(src/core/SpecProcessor.ts): `mergeSchemas` and `processSchema`.
Part 2 embeds the directory scanner `DefaultSpecScanner` (the TypeScript
source file with the Swagger-2.0 conversion branch).
Part 3 embeds `FileSystemSpecService.scanAndSave` / `saveSpec` from the
bundled service module.

JavaScript objects are modelled as association lists in key-insertion
order; object spread `{...a, ...b}` and per-key assignment are modelled by
`jsOverride`, and `Array.from(new Set(xs))` by `jsDedup` (first-occurrence
deduplication).
-/

/-- Opaque JSON scalar values used for passthrough keys of a schema
(`description`, `example`, ...). `mergeSchemas` and `processSchema` copy
these wholesale and never inspect them, so a scalar universe suffices. -/
inductive JValue where
  | jnull
  | jbool (b : Bool)
  | jnum (n : Int)
  | jstr (s : String)
deriving DecidableEq, Repr

/-- A schema-or-reference node (`SchemaOrRef` in SpecProcessor.ts).
`ref` is a node carrying `$ref` (the guard `isSchemaObject` tests exactly
the presence of that key); `obj` is a concrete schema object with its
fields split out: `t` = `type`, `ps` = `properties`, `rq` = `required`,
`al` = `allOf`, `it` = `items`, and `ex` = every other key in insertion
order (opaque passthrough values). `none` models an absent key. -/
inductive Schema where
  | ref (target : String)
  | obj (t : Option String)
        (ps : Option (List (String × Schema)))
        (rq : Option (List String))
        (al : Option (List Schema))
        (it : Option Schema)
        (ex : List (String × JValue))

namespace Schema

/-- The `type` key of a node (absent on `$ref` nodes). -/
def typeF : Schema → Option String
  | .ref _ => none
  | .obj t _ _ _ _ _ => t

/-- The `properties` key of a node. -/
def propsF : Schema → Option (List (String × Schema))
  | .ref _ => none
  | .obj _ ps _ _ _ _ => ps

/-- The `required` key of a node. -/
def reqF : Schema → Option (List String)
  | .ref _ => none
  | .obj _ _ rq _ _ _ => rq

/-- The `allOf` key of a node. -/
def allOfF : Schema → Option (List Schema)
  | .ref _ => none
  | .obj _ _ _ al _ _ => al

/-- The `items` key of a node. -/
def itemsF : Schema → Option Schema
  | .ref _ => none
  | .obj _ _ _ _ it _ => it

/-- The passthrough keys of a node. -/
def extraF : Schema → List (String × JValue)
  | .ref _ => []
  | .obj _ _ _ _ _ ex => ex

/-- Returns `true` exactly on concrete schema objects: `isSchemaObject` in
SpecProcessor.ts returns `!('$ref' in schema)`. -/
def isSchemaObject : Schema → Bool
  | .ref _ => false
  | .obj _ _ _ _ _ _ => true

end Schema

/-- The `properties` of a node, defaulting to the empty object: the merge loop
skips an absent `properties` key, which acts the same as merging `{}`. -/
def propsD (s : Schema) : List (String × Schema) := (s.propsF).getD []

/-- The `required` of a node, defaulting to the empty list. -/
def reqD (s : Schema) : List String := (s.reqF).getD []

/-- JavaScript object spread `{...old, ...new_}`: keys of `old` keep their
position with values replaced by a colliding key of `new_`; keys only in
`new_` are appended in their order. The same semantics covers sequential
`merged[key] = value` assignment over the entries of `new_`. -/
def jsOverride {α : Type} (old new_ : List (String × α)) : List (String × α) :=
  (old.map (fun kv => (kv.1, ((new_.lookup kv.1).getD kv.2)))) ++
    new_.filter (fun kv => (old.lookup kv.1).isNone)

/-- Worker for `jsDedup`: drops elements already in `seen`, keeping
first occurrences. -/
def jsDedupA (seen : List String) : List String → List String
  | [] => []
  | x :: xs => if x ∈ seen then jsDedupA seen xs else x :: jsDedupA (x :: seen) xs

/-- JavaScript `Array.from(new Set(xs))`: first-occurrence deduplication, as used for
`required` in `mergeSchemas`. -/
def jsDedup (l : List String) : List String := jsDedupA [] l

/-- The mutable `merged` accumulator of `mergeSchemas`.  It starts as
`{type: "object", properties: {}, required: []}`; `type` stays `"object"`
throughout, so only the other fields are threaded. -/
structure MAcc where
  props : List (String × Schema)
  req : List String
  alA : Option (List Schema)
  itA : Option Schema
  exA : List (String × JValue)

/-- One iteration of the `for (const schema of schemas)` loop of
`mergeSchemas` (SpecProcessor.ts lines 197-223): reference nodes are
skipped; `properties` is spread-merged; `required` is unioned through a
`Set` (first-occurrence dedup of the concatenation); every other key
except `type`, `properties`, `required` (so `allOf`, `items` and the
passthrough keys) overwrites the accumulator's entry. -/
def mergeInto (acc : MAcc) (s : Schema) : MAcc :=
  match s with
  | .ref _ => acc
  | .obj _ ps rq al it ex =>
    { props := match ps with
        | some l => jsOverride acc.props l
        | none => acc.props
      req := match rq with
        | some l => jsDedup (acc.req ++ l)
        | none => acc.req
      alA := match al with
        | some l => some l
        | none => acc.alA
      itA := match it with
        | some i => some i
        | none => acc.itA
      exA := jsOverride acc.exA ex }

/-- Embeds `DefaultSpecProcessor.mergeSchemas` (SpecProcessor.ts lines 190-231):
fold the input schemas into the accumulator, then emit a schema object
whose `type` is `"object"`, whose `properties` is always present, and
whose `required` is deleted when it ended up empty. -/
def mergeSchemas (schemas : List Schema) : Schema :=
  let acc := schemas.foldl mergeInto ⟨[], [], none, none, []⟩
  .obj (some "object") (some acc.props)
    (if acc.req = [] then none else some acc.req) acc.alA acc.itA acc.exA

mutual
/-- Embeds `DefaultSpecProcessor.processSchema` (SpecProcessor.ts lines 146-183):
a `$ref` node is returned as-is; otherwise nested `properties` values are
processed first, then `items` when `type` is `"array"`; then, if `allOf`
is absent the node is returned, if `allOf` is `[]` the key is dropped, and
otherwise each `allOf` member is processed, merged in order, and merged
again with the node's own remaining keys (`rest`, which always wins). -/
def processSchema : Schema → Schema
  | .ref r => .ref r
  | .obj t ps rq al it ex =>
    let ps' := match ps with
      | none => none
      | some l => some (processProps l)
    let it' := if t = some "array" then
        match it with
        | none => none
        | some i => some (processSchema i)
      else it
    match al with
    | none => .obj t ps' rq none it' ex
    | some [] => .obj t ps' rq none it' ex
    | some (b :: bs) =>
      mergeSchemas [mergeSchemas (processSchemas (b :: bs)),
        .obj t ps' rq none it' ex]

/-- The `for (const [key, prop] of Object.entries(schema.properties))`
recursion of `processSchema`: each property value is processed in place. -/
def processProps : List (String × Schema) → List (String × Schema)
  | [] => []
  | kv :: tl => (kv.1, processSchema kv.2) :: processProps tl

/-- Embeds `schema.allOf.map((s) => this.processSchema(s))`. -/
def processSchemas : List Schema → List Schema
  | [] => []
  | s :: tl => processSchema s :: processSchemas tl
end

/-- The `properties`-processing step of `processSchema` as a standalone
function (absent stays absent). -/
def psStep (ps : Option (List (String × Schema))) : Option (List (String × Schema)) :=
  match ps with
  | none => none
  | some l => some (processProps l)

/-- The `items`-processing step of `processSchema` as a standalone
function: `items` is processed only when `type` is `"array"`. -/
def itStep (t : Option String) (it : Option Schema) : Option Schema :=
  if t = some "array" then
    match it with
    | none => none
    | some i => some (processSchema i)
  else it

theorem processSchema_ref (r : String) : processSchema (.ref r) = .ref r := by
  rw [processSchema.eq_def]

theorem processSchema_obj_noAllOf (t : Option String)
    (ps : Option (List (String × Schema))) (rq : Option (List String))
    (it : Option Schema) (ex : List (String × JValue)) :
    processSchema (.obj t ps rq none it ex) = .obj t (psStep ps) rq none (itStep t it) ex := by
  rw [processSchema.eq_def]; rfl

theorem processSchema_obj_emptyAllOf (t : Option String)
    (ps : Option (List (String × Schema))) (rq : Option (List String))
    (it : Option Schema) (ex : List (String × JValue)) :
    processSchema (.obj t ps rq (some []) it ex) =
      .obj t (psStep ps) rq none (itStep t it) ex := by
  rw [processSchema.eq_def]; rfl

theorem processSchema_obj_consAllOf (t : Option String)
    (ps : Option (List (String × Schema))) (rq : Option (List String))
    (b : Schema) (bs : List Schema) (it : Option Schema)
    (ex : List (String × JValue)) :
    processSchema (.obj t ps rq (some (b :: bs)) it ex) =
      mergeSchemas [mergeSchemas (processSchemas (b :: bs)),
        .obj t (psStep ps) rq none (itStep t it) ex] := by
  rw [processSchema.eq_def]; rfl

theorem processProps_eq_map (l : List (String × Schema)) :
    processProps l = l.map (fun kv => (kv.1, processSchema kv.2)) := by
  induction l with
  | nil => rfl
  | cons kv tl ih => rw [processProps]; rw [ih]; rfl

theorem processSchemas_eq_map (l : List Schema) :
    processSchemas l = l.map processSchema := by
  induction l with
  | nil => rfl
  | cons s tl ih => rw [processSchemas]; rw [ih]; rfl

/-- JavaScript-style `a ?? b` on optional values (first defined wins). -/
def orO {α : Type} (a b : Option α) : Option α :=
  match a with
  | some v => some v
  | none => b

theorem orO_none_left {α : Type} (b : Option α) : orO none b = b := rfl

theorem orO_none_right {α : Type} (a : Option α) : orO a none = a := by
  cases a <;> rfl

theorem orO_assoc {α : Type} (a b c : Option α) :
    orO (orO a b) c = orO a (orO b c) := by
  cases a <;> rfl

theorem lookup_append {α : Type} (a b : List (String × α)) (k : String) :
    ((a ++ b).lookup k) = orO (a.lookup k) (b.lookup k) := by
  induction a with
  | nil => rfl
  | cons kv tl ih =>
    rw [List.cons_append, List.lookup, List.lookup]
    cases h : (k == kv.1) with
    | true => rfl
    | false => exact ih

theorem lookup_mem {α : Type} (l : List (String × α)) (k : String) (v : α)
    (h : l.lookup k = some v) : (k, v) ∈ l := by
  induction l with
  | nil => simp [List.lookup] at h
  | cons kv tl ih =>
    rw [List.lookup] at h
    cases hk : (k == kv.1) with
    | true =>
      rw [hk] at h
      simp only [Option.some.injEq] at h
      have hk1 : k = kv.1 := by simpa using hk
      subst hk1
      subst h
      exact List.mem_cons_self _ _
    | false =>
      rw [hk] at h
      exact List.mem_cons_of_mem _ (ih h)

theorem lookup_eq_none_iff {α : Type} (l : List (String × α)) (k : String) :
    l.lookup k = none ↔ k ∉ l.map Prod.fst := by
  induction l with
  | nil => simp [List.lookup]
  | cons kv tl ih =>
    rw [List.lookup]
    cases hk : (k == kv.1) with
    | true =>
      have hk1 : k = kv.1 := by simpa using hk
      subst hk1
      simp
    | false =>
      have hk1 : ¬ k = kv.1 := by simpa using hk
      simp [ih, hk1]

theorem lookup_mapVal {α β : Type} (l : List (String × α)) (g : String → α → β)
    (k : String) :
    ((l.map (fun kv => (kv.1, g kv.1 kv.2))).lookup k) = (l.lookup k).map (g k) := by
  induction l with
  | nil => rfl
  | cons kv tl ih =>
    rw [List.map_cons, List.lookup, List.lookup]
    cases hk : (k == kv.1) with
    | true =>
      have hk1 : k = kv.1 := by simpa using hk
      subst hk1
      rfl
    | false => exact ih

theorem lookup_filter {α : Type} (l : List (String × α)) (p : String × α → Bool)
    (k : String) (hp : ∀ v : α, (k, v) ∈ l → p (k, v) = true) :
    ((l.filter p).lookup k) = l.lookup k := by
  induction l with
  | nil => rfl
  | cons kv tl ih =>
    have ihtl := ih (fun v hv => hp v (List.mem_cons_of_mem _ hv))
    rw [List.filter_cons]
    cases hk : (k == kv.1) with
    | true =>
      have hk1 : k = kv.1 := by simpa using hk
      subst hk1
      have hpkv : p (kv.1, kv.2) = true := hp kv.2 (by simp)
      rw [if_pos (by simpa using hpkv)]
      rw [List.lookup, List.lookup]
      simp
    | false =>
      by_cases hpkv : p kv = true
      · rw [if_pos hpkv, List.lookup, List.lookup, hk]
        exact ihtl
      · rw [if_neg hpkv, List.lookup, hk]
        exact ihtl

theorem jsOverride_nil_left {α : Type} (b : List (String × α)) :
    jsOverride [] b = b := by
  simp [jsOverride, List.lookup]

theorem jsOverride_nil_right {α : Type} (a : List (String × α)) :
    jsOverride a [] = a := by
  simp [jsOverride, List.lookup]

theorem lookup_jsOverride {α : Type} (a b : List (String × α)) (k : String) :
    ((jsOverride a b).lookup k) = orO (b.lookup k) (a.lookup k) := by
  rw [jsOverride, lookup_append]
  rw [lookup_mapVal a (fun k1 v => (b.lookup k1).getD v) k]
  cases ha : a.lookup k with
  | some v =>
    cases hb : b.lookup k <;> simp [orO]
  | none =>
    simp only [Option.map_none', orO_none_left]
    rw [lookup_filter]
    · rw [orO_none_right]
    · intro v hv
      simp only [ha, Option.isNone_none]

theorem jsOverride_append_of_disjoint {α : Type} (a b : List (String × α))
    (hab : ∀ k ∈ a.map Prod.fst, b.lookup k = none)
    (hba : ∀ k ∈ b.map Prod.fst, a.lookup k = none) :
    jsOverride a b = a ++ b := by
  rw [jsOverride]
  have h1 : a.map (fun kv => (kv.1, ((b.lookup kv.1).getD kv.2))) = a := by
    have : ∀ kv ∈ a, (fun kv : String × α => (kv.1, ((b.lookup kv.1).getD kv.2))) kv = id kv := by
      intro kv hkv
      have : b.lookup kv.1 = none := hab kv.1 (List.mem_map_of_mem _ hkv)
      simp [this]
    rw [List.map_congr_left this, List.map_id]
  have h2 : b.filter (fun kv => (a.lookup kv.1).isNone) = b := by
    rw [List.filter_eq_self]
    intro kv hkv
    have : a.lookup kv.1 = none := hba kv.1 (List.mem_map_of_mem _ hkv)
    simp [this]
  rw [h1, h2]

theorem mem_values_jsOverride {α : Type} (a b : List (String × α)) (v : α)
    (h : v ∈ (jsOverride a b).map Prod.snd) :
    v ∈ a.map Prod.snd ∨ v ∈ b.map Prod.snd := by
  rw [jsOverride, List.map_append] at h
  rcases List.mem_append.mp h with h1 | h2
  · rw [List.map_map] at h1
    rcases List.mem_map.mp h1 with ⟨kv, hkv, hv⟩
    simp only [Function.comp] at hv
    cases hb : b.lookup kv.1 with
    | some w =>
      right
      rw [hb] at hv
      simp only [Option.getD_some] at hv
      subst hv
      exact List.mem_map_of_mem _ (lookup_mem b kv.1 w hb)
    | none =>
      left
      rw [hb] at hv
      simp only [Option.getD_none] at hv
      subst hv
      exact List.mem_map_of_mem _ hkv
  · right
    rcases List.mem_map.mp h2 with ⟨kv, hkv, hv⟩
    subst hv
    exact List.mem_map_of_mem _ (List.mem_of_mem_filter hkv)

theorem mem_jsDedupA (seen l : List String) (y : String) :
    y ∈ jsDedupA seen l ↔ (y ∈ l ∧ y ∉ seen) := by
  induction l generalizing seen with
  | nil => simp [jsDedupA]
  | cons x xs ih =>
    rw [jsDedupA]
    by_cases hx : x ∈ seen
    · rw [if_pos hx, ih]
      constructor
      · rintro ⟨hy, hys⟩
        exact ⟨List.mem_cons_of_mem _ hy, hys⟩
      · rintro ⟨hy, hys⟩
        rcases List.mem_cons.mp hy with rfl | hy
        · exact absurd hx hys
        · exact ⟨hy, hys⟩
    · rw [if_neg hx]
      rw [List.mem_cons, ih]
      constructor
      · rintro (rfl | ⟨hy, hys⟩)
        · exact ⟨List.mem_cons_self _ _, hx⟩
        · refine ⟨List.mem_cons_of_mem _ hy, ?_⟩
          intro hc
          exact hys (List.mem_cons_of_mem _ hc)
      · rintro ⟨hy, hys⟩
        rcases List.mem_cons.mp hy with rfl | hy
        · exact Or.inl rfl
        · by_cases hyx : y = x
          · exact Or.inl hyx
          · refine Or.inr ⟨hy, ?_⟩
            intro hc
            rcases List.mem_cons.mp hc with rfl | hc
            · exact hyx rfl
            · exact hys hc

theorem jsDedupA_congr (s1 s2 l : List String)
    (h : ∀ x, x ∈ s1 ↔ x ∈ s2) : jsDedupA s1 l = jsDedupA s2 l := by
  induction l generalizing s1 s2 with
  | nil => rfl
  | cons x xs ih =>
    rw [jsDedupA, jsDedupA]
    by_cases hx : x ∈ s1
    · rw [if_pos hx, if_pos ((h x).mp hx)]
      exact ih s1 s2 h
    · rw [if_neg hx, if_neg (fun hc => hx ((h x).mpr hc))]
      congr 1
      refine ih _ _ ?_
      intro z
      simp [h z]

theorem jsDedupA_append (seen a b : List String) :
    jsDedupA seen (a ++ b) = jsDedupA seen a ++ jsDedupA (a ++ seen) b := by
  induction a generalizing seen with
  | nil => simp [jsDedupA]
  | cons x xs ih =>
    rw [List.cons_append, jsDedupA, jsDedupA]
    by_cases hx : x ∈ seen
    · rw [if_pos hx, if_pos hx, ih]
      congr 1
      refine jsDedupA_congr _ _ _ ?_
      intro z
      constructor
      · intro hz
        rcases List.mem_append.mp hz with h1 | h2
        · exact List.mem_append.mpr (Or.inl (List.mem_cons_of_mem _ h1))
        · exact List.mem_append.mpr (Or.inr h2)
      · intro hz
        rcases List.mem_append.mp hz with h1 | h2
        · rcases List.mem_cons.mp h1 with rfl | h1
          · exact List.mem_append.mpr (Or.inr hx)
          · exact List.mem_append.mpr (Or.inl h1)
        · exact List.mem_append.mpr (Or.inr h2)
    · rw [if_neg hx, if_neg hx, ih, List.cons_append]
      congr 2
      refine jsDedupA_congr _ _ _ ?_
      intro z
      constructor
      · intro hz
        rcases List.mem_append.mp hz with h1 | h2
        · exact List.mem_cons_of_mem _ (List.mem_append.mpr (Or.inl h1))
        · rcases List.mem_cons.mp h2 with rfl | h2
          · exact List.mem_cons_self _ _
          · exact List.mem_cons_of_mem _ (List.mem_append.mpr (Or.inr h2))
      · intro hz
        rcases List.mem_cons.mp hz with rfl | h1
        · exact List.mem_append.mpr (Or.inr (List.mem_cons_self _ _))
        · rcases List.mem_append.mp h1 with h2 | h3
          · exact List.mem_append.mpr (Or.inl h2)
          · exact List.mem_append.mpr (Or.inr (List.mem_cons_of_mem _ h3))

theorem nodup_jsDedupA (seen l : List String) : (jsDedupA seen l).Nodup := by
  induction l generalizing seen with
  | nil => exact List.nodup_nil
  | cons x xs ih =>
    rw [jsDedupA]
    by_cases hx : x ∈ seen
    · rw [if_pos hx]; exact ih seen
    · rw [if_neg hx]
      refine List.nodup_cons.mpr ⟨?_, ih (x :: seen)⟩
      intro hc
      have := (mem_jsDedupA _ _ _).mp hc
      exact this.2 (List.mem_cons_self _ _)

theorem jsDedupA_eq_self (seen l : List String) (hnd : l.Nodup)
    (hs : ∀ x ∈ l, x ∉ seen) : jsDedupA seen l = l := by
  induction l generalizing seen with
  | nil => rfl
  | cons x xs ih =>
    rw [jsDedupA, if_neg (hs x (List.mem_cons_self _ _))]
    congr 1
    refine ih (x :: seen) (List.nodup_cons.mp hnd).2 ?_
    intro z hz hc
    rcases List.mem_cons.mp hc with rfl | hc
    · exact (List.nodup_cons.mp hnd).1 hz
    · exact hs z (List.mem_cons_of_mem _ hz) hc

theorem jsDedup_idem (l : List String) : jsDedup (jsDedup l) = jsDedup l := by
  rw [jsDedup, jsDedup]
  exact jsDedupA_eq_self [] _ (nodup_jsDedupA [] l) (fun x _ => List.not_mem_nil x)

theorem jsDedup_dedup_append (a b : List String) :
    jsDedup (jsDedup a ++ b) = jsDedup (a ++ b) := by
  simp only [jsDedup]
  rw [jsDedupA_append, jsDedupA_append]
  congr 1
  · exact jsDedupA_eq_self [] _ (nodup_jsDedupA [] a) (fun x _ => List.not_mem_nil x)
  · refine jsDedupA_congr _ _ _ ?_
    intro z
    rw [List.append_nil, List.append_nil, mem_jsDedupA]
    simp

/-- The `properties` evolution of one `mergeSchemas` loop iteration, as a
function of the contributing node only. -/
def propsStepF (p : List (String × Schema)) (s : Schema) : List (String × Schema) :=
  jsOverride p (propsD s)

/-- The `required` evolution of one `mergeSchemas` loop iteration. -/
def reqStepF (r : List String) (s : Schema) : List String :=
  match s.reqF with
  | some l => jsDedup (r ++ l)
  | none => r

/-- The `allOf` passthrough evolution of one `mergeSchemas` loop
iteration (an `allOf` key present on a merged node overwrites). -/
def alStepF (a : Option (List Schema)) (s : Schema) : Option (List Schema) :=
  orO s.allOfF a

/-- The definition a lookup of `k` resolves to across a list of merged
nodes: the last node defining `k` wins. -/
def lastPropDef (k : String) (ss : List Schema) : Option Schema :=
  ss.foldl (fun o s => orO ((propsD s).lookup k) o) none

theorem fold_mergeInto_props (ss : List Schema) (acc : MAcc) :
    (ss.foldl mergeInto acc).props = ss.foldl propsStepF acc.props := by
  induction ss generalizing acc with
  | nil => rfl
  | cons s tl ih =>
    rw [List.foldl_cons, List.foldl_cons, ih]
    congr 1
    cases s with
    | ref r => simp [mergeInto, propsStepF, propsD, Schema.propsF, jsOverride_nil_right]
    | obj t ps rq al it ex =>
      cases ps with
      | none => simp [mergeInto, propsStepF, propsD, Schema.propsF, jsOverride_nil_right]
      | some l => simp [mergeInto, propsStepF, propsD, Schema.propsF]

theorem fold_mergeInto_req (ss : List Schema) (acc : MAcc) :
    (ss.foldl mergeInto acc).req = ss.foldl reqStepF acc.req := by
  induction ss generalizing acc with
  | nil => rfl
  | cons s tl ih =>
    rw [List.foldl_cons, List.foldl_cons, ih]
    congr 1
    cases s with
    | ref r => simp [mergeInto, reqStepF, Schema.reqF]
    | obj t ps rq al it ex =>
      cases rq with
      | none => simp [mergeInto, reqStepF, Schema.reqF]
      | some l => simp [mergeInto, reqStepF, Schema.reqF]

theorem fold_mergeInto_alA (ss : List Schema) (acc : MAcc) :
    (ss.foldl mergeInto acc).alA = ss.foldl alStepF acc.alA := by
  induction ss generalizing acc with
  | nil => rfl
  | cons s tl ih =>
    rw [List.foldl_cons, List.foldl_cons, ih]
    congr 1
    cases s with
    | ref r => simp [mergeInto, alStepF, Schema.allOfF, orO]
    | obj t ps rq al it ex =>
      cases al with
      | none => simp [mergeInto, alStepF, Schema.allOfF, orO]
      | some l => simp [mergeInto, alStepF, Schema.allOfF, orO]

theorem mergeSchemas_typeF (ss : List Schema) :
    (mergeSchemas ss).typeF = some "object" := by
  simp [mergeSchemas, Schema.typeF]

theorem mergeSchemas_propsF (ss : List Schema) :
    (mergeSchemas ss).propsF = some (ss.foldl propsStepF []) := by
  simp only [mergeSchemas, Schema.propsF]
  rw [fold_mergeInto_props]

theorem mergeSchemas_reqF (ss : List Schema) :
    (mergeSchemas ss).reqF =
      (if ss.foldl reqStepF [] = [] then none else some (ss.foldl reqStepF [])) := by
  simp only [mergeSchemas, Schema.reqF]
  rw [fold_mergeInto_req]

theorem mergeSchemas_allOfF (ss : List Schema) :
    (mergeSchemas ss).allOfF = ss.foldl alStepF none := by
  simp only [mergeSchemas, Schema.allOfF]
  rw [fold_mergeInto_alA]

theorem fold_reqStepF_eq (ss : List Schema) :
    ∀ r : List String, jsDedup r = r →
      ss.foldl reqStepF r = jsDedup (r ++ ss.flatMap reqD) := by
  induction ss with
  | nil =>
    intro r hr
    rw [List.flatMap_nil, List.append_nil, hr]
    rfl
  | cons s tl ih =>
    intro r hr
    rw [List.foldl_cons, List.flatMap_cons]
    cases hs : s.reqF with
    | none =>
      have : reqStepF r s = r := by simp [reqStepF, hs]
      rw [this, ih r hr]
      simp [reqD, hs]
    | some l =>
      have : reqStepF r s = jsDedup (r ++ l) := by simp [reqStepF, hs]
      rw [this, ih _ (jsDedup_idem _)]
      rw [jsDedup_dedup_append, reqD, hs]
      simp

theorem foldl_orO_init {α β : Type} (f : β → Option α) (ss : List β) (o0 : Option α) :
    ss.foldl (fun o s => orO (f s) o) o0 =
      orO (ss.foldl (fun o s => orO (f s) o) none) o0 := by
  induction ss generalizing o0 with
  | nil => rfl
  | cons s tl ih =>
    rw [List.foldl_cons, List.foldl_cons]
    rw [ih (orO (f s) o0), ih (orO (f s) none)]
    rw [orO_assoc, orO_assoc, orO_none_left]

theorem fold_orO_none {α β : Type} (f : β → Option α) (ss : List β) (a0 : Option α)
    (h : ∀ s ∈ ss, f s = none) :
    ss.foldl (fun o s => orO (f s) o) a0 = a0 := by
  induction ss generalizing a0 with
  | nil => rfl
  | cons s tl ih =>
    rw [List.foldl_cons, h s (List.mem_cons_self _ _), orO_none_left]
    exact ih _ (fun x hx => h x (List.mem_cons_of_mem _ hx))

theorem lookup_fold_propsStepF (ss : List Schema) (p0 : List (String × Schema)) (k : String) :
    ((ss.foldl propsStepF p0).lookup k) = orO (lastPropDef k ss) (p0.lookup k) := by
  induction ss generalizing p0 with
  | nil => rfl
  | cons s tl ih =>
    simp only [lastPropDef] at ih ⊢
    rw [List.foldl_cons, ih, propsStepF, lookup_jsOverride]
    conv_rhs => rw [List.foldl_cons, orO_none_right, foldl_orO_init]
    rw [orO_assoc]

theorem fold_propsStepF_append (ss : List Schema) :
    ∀ p0 : List (String × Schema),
      ss.Pairwise (fun a b => ∀ k ∈ (propsD a).map Prod.fst, k ∉ (propsD b).map Prod.fst) →
      (∀ s ∈ ss, ∀ k ∈ p0.map Prod.fst, k ∉ (propsD s).map Prod.fst) →
      ss.foldl propsStepF p0 = p0 ++ ss.flatMap propsD := by
  induction ss with
  | nil =>
    intro p0 _ _
    simp
  | cons s tl ih =>
    intro p0 hpw hp0
    rw [List.foldl_cons, List.flatMap_cons]
    have hstep : propsStepF p0 s = p0 ++ propsD s := by
      rw [propsStepF]
      refine jsOverride_append_of_disjoint _ _ ?_ ?_
      · intro k hk
        rw [lookup_eq_none_iff]
        exact hp0 s (List.mem_cons_self _ _) k hk
      · intro k hk
        rw [lookup_eq_none_iff]
        intro hc
        exact hp0 s (List.mem_cons_self _ _) k hc hk
    rw [hstep]
    rw [ih (p0 ++ propsD s) (List.Pairwise.of_cons hpw) ?_]
    · rw [List.append_assoc]
    · intro x hx k hk
      rw [List.map_append, List.mem_append] at hk
      rcases hk with hk | hk
      · exact hp0 x (List.mem_cons_of_mem _ hx) k hk
      · exact (List.pairwise_cons.mp hpw).1 x hx k hk

theorem mem_values_fold_propsStepF (ss : List Schema) (p0 : List (String × Schema)) (v : Schema)
    (h : v ∈ (ss.foldl propsStepF p0).map Prod.snd) :
    v ∈ p0.map Prod.snd ∨ ∃ s ∈ ss, v ∈ (propsD s).map Prod.snd := by
  induction ss generalizing p0 with
  | nil => exact Or.inl h
  | cons s tl ih =>
    rw [List.foldl_cons] at h
    rcases ih _ h with h1 | ⟨x, hx, hv⟩
    · rcases mem_values_jsOverride _ _ _ h1 with h2 | h2
      · exact Or.inl h2
      · exact Or.inr ⟨s, List.mem_cons_self _ _, h2⟩
    · exact Or.inr ⟨x, List.mem_cons_of_mem _ hx, hv⟩

theorem processProps_keys (l : List (String × Schema)) :
    (processProps l).map Prod.fst = l.map Prod.fst := by
  induction l with
  | nil => rfl
  | cons kv tl ih =>
    rw [processProps, List.map_cons, List.map_cons, ih]

theorem lookup_processProps (l : List (String × Schema)) (k : String) :
    ((processProps l).lookup k) = (l.lookup k).map processSchema := by
  rw [processProps_eq_map]
  exact lookup_mapVal l (fun _ v => processSchema v) k

theorem mem_values_processProps (l : List (String × Schema)) (v : Schema)
    (h : v ∈ (processProps l).map Prod.snd) :
    ∃ w ∈ l.map Prod.snd, v = processSchema w := by
  rw [processProps_eq_map, List.map_map] at h
  rcases List.mem_map.mp h with ⟨kv, hkv, hv⟩
  exact ⟨kv.2, List.mem_map_of_mem _ hkv, hv.symm⟩

theorem processProps_eq_self (l : List (String × Schema))
    (h : ∀ v ∈ l.map Prod.snd, processSchema v = v) : processProps l = l := by
  induction l with
  | nil => rfl
  | cons kv tl ih =>
    rw [processProps]
    rw [h kv.2 (by simp),
      ih (fun v hv => h v (by rw [List.map_cons]; exact List.mem_cons_of_mem _ hv))]

theorem sizeOf_prop_lt (t : Option String) (l : List (String × Schema))
    (rq : Option (List String)) (al : Option (List Schema)) (it : Option Schema)
    (ex : List (String × JValue)) (kv : String × Schema) (hkv : kv ∈ l) :
    sizeOf kv.2 < sizeOf (Schema.obj t (some l) rq al it ex) := by
  have h1 : sizeOf kv < sizeOf l := List.sizeOf_lt_of_mem hkv
  have h2 : sizeOf kv.2 < sizeOf kv := by
    cases kv
    simp
  simp only [Schema.obj.sizeOf_spec, Option.some.sizeOf_spec]
  omega

theorem sizeOf_branch_lt (t : Option String) (ps : Option (List (String × Schema)))
    (rq : Option (List String)) (bl : List Schema) (it : Option Schema)
    (ex : List (String × JValue)) (b : Schema) (hb : b ∈ bl) :
    sizeOf b < sizeOf (Schema.obj t ps rq (some bl) it ex) := by
  have h1 : sizeOf b < sizeOf bl := List.sizeOf_lt_of_mem hb
  simp only [Schema.obj.sizeOf_spec, Option.some.sizeOf_spec]
  omega

theorem sizeOf_item_lt (t : Option String) (ps : Option (List (String × Schema)))
    (rq : Option (List String)) (al : Option (List Schema)) (i : Schema)
    (ex : List (String × JValue)) :
    sizeOf i < sizeOf (Schema.obj t ps rq al (some i) ex) := by
  simp only [Schema.obj.sizeOf_spec, Option.some.sizeOf_spec]
  omega

/-- No `allOf` key survives `processSchema`: every output node has its
`allOf` either untouched-absent, dropped, or replaced by a merge whose
members (already processed) carry no `allOf` to pass through. -/
theorem processSchema_allOfF (s : Schema) : (processSchema s).allOfF = none := by
  generalize hn : sizeOf s = n
  induction n using Nat.strong_induction_on generalizing s with
  | _ n ih =>
  cases s with
  | ref r => rw [processSchema_ref]; rfl
  | obj t ps rq al it ex =>
    match al with
    | none => rw [processSchema_obj_noAllOf]; rfl
    | some [] => rw [processSchema_obj_emptyAllOf]; rfl
    | some (b :: bs) =>
      rw [processSchema_obj_consAllOf, mergeSchemas_allOfF]
      rw [List.foldl_cons, List.foldl_cons, List.foldl_nil]
      rw [alStepF, alStepF]
      have hR : (Schema.obj t (psStep ps) rq none (itStep t it) ex).allOfF = none := rfl
      rw [hR, orO_none_left, orO_none_right]
      rw [mergeSchemas_allOfF]
      refine fold_orO_none _ _ _ ?_
      intro x hx
      rw [processSchemas_eq_map] at hx
      rcases List.mem_map.mp hx with ⟨bi, hbi, hbx⟩
      subst hbx
      have hlt : sizeOf bi < n := by
        rw [← hn]
        exact sizeOf_branch_lt t ps rq (b :: bs) it ex bi hbi
      exact ih (sizeOf bi) hlt bi rfl

/-- The `items` passthrough evolution of one `mergeSchemas` loop
iteration. -/
def itStepF (a : Option Schema) (s : Schema) : Option Schema :=
  orO s.itemsF a

/-- The passthrough-keys evolution of one `mergeSchemas` loop iteration. -/
def exStepF (p : List (String × JValue)) (s : Schema) : List (String × JValue) :=
  jsOverride p s.extraF

theorem fold_mergeInto_itA (ss : List Schema) (acc : MAcc) :
    (ss.foldl mergeInto acc).itA = ss.foldl itStepF acc.itA := by
  induction ss generalizing acc with
  | nil => rfl
  | cons s tl ih =>
    rw [List.foldl_cons, List.foldl_cons, ih]
    congr 1
    cases s with
    | ref r => simp [mergeInto, itStepF, Schema.itemsF, orO]
    | obj t ps rq al it ex =>
      cases it with
      | none => simp [mergeInto, itStepF, Schema.itemsF, orO]
      | some i => simp [mergeInto, itStepF, Schema.itemsF, orO]

theorem fold_mergeInto_exA (ss : List Schema) (acc : MAcc) :
    (ss.foldl mergeInto acc).exA = ss.foldl exStepF acc.exA := by
  induction ss generalizing acc with
  | nil => rfl
  | cons s tl ih =>
    rw [List.foldl_cons, List.foldl_cons, ih]
    congr 1
    cases s with
    | ref r => simp [mergeInto, exStepF, Schema.extraF, jsOverride_nil_right]
    | obj t ps rq al it ex => simp [mergeInto, exStepF, Schema.extraF]

/-- Full field-wise characterization of `mergeSchemas`. -/
theorem mergeSchemas_eq (ss : List Schema) :
    mergeSchemas ss = Schema.obj (some "object")
      (some (ss.foldl propsStepF []))
      (if ss.foldl reqStepF [] = [] then none else some (ss.foldl reqStepF []))
      (ss.foldl alStepF none) (ss.foldl itStepF none) (ss.foldl exStepF []) := by
  simp only [mergeSchemas]
  rw [fold_mergeInto_props, fold_mergeInto_req, fold_mergeInto_alA,
    fold_mergeInto_itA, fold_mergeInto_exA]

theorem itStep_not_array (t : Option String) (it : Option Schema)
    (h : ¬ t = some "array") : itStep t it = it := by
  rw [itStep.eq_def, if_neg h]

/-- The map `processSchema` is idempotent, jointly with: every `properties` value
of a `processSchema` output is itself a fixed point of `processSchema`. -/
theorem processSchema_idem_aux :
    ∀ n : Nat, ∀ s : Schema, sizeOf s = n →
      processSchema (processSchema s) = processSchema s ∧
      (∀ v ∈ (propsD (processSchema s)).map Prod.snd, processSchema v = v) := by
  intro n
  induction n using Nat.strong_induction_on with
  | _ n ih =>
  intro s hn
  cases s with
  | ref r =>
    refine ⟨?_, ?_⟩
    · rw [processSchema_ref, processSchema_ref]
    · intro v hv
      rw [processSchema_ref] at hv
      simp [propsD, Schema.propsF] at hv
  | obj t ps rq al it ex =>
    -- the two recursive sub-steps are idempotent, by the inductive hypothesis
    have hps : psStep (psStep ps) = psStep ps := by
      cases ps with
      | none => rfl
      | some l =>
        show some (processProps (processProps l)) = some (processProps l)
        congr 1
        refine processProps_eq_self _ ?_
        intro v hv
        rcases mem_values_processProps l v hv with ⟨w, hw, hvw⟩
        subst hvw
        rcases List.mem_map.mp hw with ⟨kv, hkv, hkvw⟩
        have hlt : sizeOf kv.2 < n := by
          rw [← hn]
          exact sizeOf_prop_lt t l rq al it ex kv hkv
        have := (ih (sizeOf kv.2) hlt kv.2 rfl).1
        rw [hkvw] at this
        exact this
    have hvalsPs : ∀ v ∈ ((psStep ps).getD []).map Prod.snd, processSchema v = v := by
      cases ps with
      | none => intro v hv; simp [psStep] at hv
      | some l =>
        intro v hv
        rcases mem_values_processProps l v hv with ⟨w, hw, hvw⟩
        subst hvw
        rcases List.mem_map.mp hw with ⟨kv, hkv, hkvw⟩
        have hlt : sizeOf kv.2 < n := by
          rw [← hn]
          exact sizeOf_prop_lt t l rq al it ex kv hkv
        have := (ih (sizeOf kv.2) hlt kv.2 rfl).1
        rw [hkvw] at this
        exact this
    have hit : itStep t (itStep t it) = itStep t it := by
      by_cases ht : t = some "array"
      · subst ht
        cases it with
        | none => rfl
        | some i =>
          show itStep _ (some (processSchema i)) = _
          rw [itStep.eq_def, if_pos rfl]
          show some (processSchema (processSchema i)) = some (processSchema i)
          congr 1
          have hlt : sizeOf i < n := by
            rw [← hn]
            exact sizeOf_item_lt (some "array") ps rq al i ex
          exact (ih (sizeOf i) hlt i rfl).1
      · rw [itStep_not_array t _ ht, itStep_not_array t it ht]
    match al with
    | none =>
      rw [processSchema_obj_noAllOf]
      refine ⟨?_, ?_⟩
      · rw [processSchema_obj_noAllOf, hps, hit]
      · intro v hv
        exact hvalsPs v hv
    | some [] =>
      rw [processSchema_obj_emptyAllOf]
      refine ⟨?_, ?_⟩
      · rw [processSchema_obj_noAllOf, hps, hit]
      · intro v hv
        exact hvalsPs v hv
    | some (b :: bs) =>
      rw [processSchema_obj_consAllOf]
      -- every properties value of the outer merge is a processSchema fixed point
      have hvalsMerge : ∀ v ∈ (([mergeSchemas (processSchemas (b :: bs)),
          Schema.obj t (psStep ps) rq none (itStep t it) ex].foldl propsStepF [])).map Prod.snd,
          processSchema v = v := by
        intro v hv
        rcases mem_values_fold_propsStepF _ _ _ hv with h0 | ⟨x, hx, hvx⟩
        · simp at h0
        · rcases List.mem_cons.mp hx with rfl | hx2
          · -- v is a properties value of the inner merge of the processed branches
            rw [propsD, mergeSchemas_propsF] at hvx
            simp only [Option.getD_some] at hvx
            rcases mem_values_fold_propsStepF _ _ _ hvx with h0 | ⟨y, hy, hvy⟩
            · simp at h0
            · rw [processSchemas_eq_map] at hy
              rcases List.mem_map.mp hy with ⟨bi, hbi, hbiy⟩
              subst hbiy
              have hlt : sizeOf bi < n := by
                rw [← hn]
                exact sizeOf_branch_lt t ps rq (b :: bs) it ex bi hbi
              exact (ih (sizeOf bi) hlt bi rfl).2 v hvy
          · rcases List.mem_cons.mp hx2 with rfl | hx3
            · exact hvalsPs v hvx
            · simp at hx3
      have hALM : (mergeSchemas (processSchemas (b :: bs))).allOfF = none := by
        rw [mergeSchemas_allOfF]
        refine fold_orO_none _ _ _ ?_
        intro x hx
        rw [processSchemas_eq_map] at hx
        rcases List.mem_map.mp hx with ⟨bi, _, hbx⟩
        subst hbx
        exact processSchema_allOfF bi
      -- the merged node has no allOf and type "object", so reprocessing it
      -- only revisits its properties values
      rw [mergeSchemas_eq]
      have hal2 : ([mergeSchemas (processSchemas (b :: bs)),
          Schema.obj t (psStep ps) rq none (itStep t it) ex].foldl alStepF none) = none := by
        rw [List.foldl_cons, List.foldl_cons, List.foldl_nil]
        rw [alStepF, alStepF]
        have hR : (Schema.obj t (psStep ps) rq none (itStep t it) ex).allOfF = none := rfl
        rw [hR, orO_none_left, orO_none_right, hALM]
      rw [hal2]
      rw [processSchema_obj_noAllOf]
      refine ⟨?_, ?_⟩
      · rw [itStep_not_array (some "object") _ (by decide)]
        congr 1
        show some (processProps _) = some _
        congr 1
        exact processProps_eq_self _ hvalsMerge
      · intro v hv
        exact hvalsMerge v hv

theorem propsD_mergeSchemas (ss : List Schema) :
    propsD (mergeSchemas ss) = ss.foldl propsStepF [] := by
  rw [propsD, mergeSchemas_propsF]
  rfl

theorem jsDedup_nil : jsDedup [] = [] := rfl

theorem jsDedup_eq_nil_iff (l : List String) : jsDedup l = [] ↔ l = [] := by
  cases l with
  | nil => simp [jsDedup, jsDedupA]
  | cons x xs =>
    simp only [jsDedup, jsDedupA]
    rw [if_neg (List.not_mem_nil x)]
    simp

theorem reqStepF_mergeSchemas (r : List String) (ss : List Schema)
    (hr : jsDedup r = r) :
    reqStepF r (mergeSchemas ss) = jsDedup (r ++ ss.foldl reqStepF []) := by
  rw [reqStepF, mergeSchemas_reqF]
  by_cases h : ss.foldl reqStepF [] = []
  · rw [if_pos h, h, List.append_nil, hr]
  · rw [if_neg h]

/-- The `required` of a flattened non-empty-`allOf` node: the deduplicated
concatenation of the processed branches' `required` lists followed by the
node's own `required`, dropped when empty. -/
theorem processSchema_consAllOf_reqF (t : Option String)
    (ps : Option (List (String × Schema))) (rq : Option (List String))
    (b : Schema) (bs : List Schema) (it : Option Schema)
    (ex : List (String × JValue)) :
    (processSchema (.obj t ps rq (some (b :: bs)) it ex)).reqF =
      (if jsDedup ((processSchemas (b :: bs)).flatMap reqD ++ rq.getD []) = []
       then none
       else some (jsDedup ((processSchemas (b :: bs)).flatMap reqD ++ rq.getD []))) := by
  rw [processSchema_obj_consAllOf, mergeSchemas_reqF]
  have hM : List.foldl reqStepF [] (processSchemas (b :: bs)) =
      jsDedup ((processSchemas (b :: bs)).flatMap reqD) := by
    rw [fold_reqStepF_eq _ [] jsDedup_nil]
    rfl
  have hfold : [mergeSchemas (processSchemas (b :: bs)),
      Schema.obj t (psStep ps) rq none (itStep t it) ex].foldl reqStepF [] =
      jsDedup ((processSchemas (b :: bs)).flatMap reqD ++ rq.getD []) := by
    rw [List.foldl_cons, List.foldl_cons, List.foldl_nil]
    rw [reqStepF_mergeSchemas [] _ jsDedup_nil]
    rw [List.nil_append, hM, jsDedup_idem]
    show reqStepF (jsDedup ((processSchemas (b :: bs)).flatMap reqD)) _ = _
    cases rq with
    | none =>
      show jsDedup ((processSchemas (b :: bs)).flatMap reqD) = _
      rw [Option.getD_none, List.append_nil]
    | some lr =>
      show jsDedup (jsDedup ((processSchemas (b :: bs)).flatMap reqD) ++ lr) = _
      rw [jsDedup_dedup_append]
      rfl
  rw [hfold]

/-- Per-key lookup of the `properties` of a flattened non-empty-`allOf`
node: the node's own (processed) sibling property wins, else the last
processed branch defining the key wins. -/
theorem processSchema_consAllOf_props_lookup (t : Option String)
    (ps : Option (List (String × Schema))) (rq : Option (List String))
    (b : Schema) (bs : List Schema) (it : Option Schema)
    (ex : List (String × JValue)) (k : String) :
    ((propsD (processSchema (.obj t ps rq (some (b :: bs)) it ex))).lookup k) =
      orO ((processProps (ps.getD [])).lookup k)
        (lastPropDef k (processSchemas (b :: bs))) := by
  rw [processSchema_obj_consAllOf, propsD_mergeSchemas]
  rw [lookup_fold_propsStepF]
  have hnil : (([] : List (String × Schema)).lookup k) = none := rfl
  rw [hnil, orO_none_right]
  rw [lastPropDef, List.foldl_cons, List.foldl_cons, List.foldl_nil, orO_none_right]
  have hR : propsD (Schema.obj t (psStep ps) rq none (itStep t it) ex) =
      processProps (ps.getD []) := by
    cases ps with
    | none => rfl
    | some l => rfl
  rw [hR]
  have hMl : ((propsD (mergeSchemas (processSchemas (b :: bs)))).lookup k) =
      lastPropDef k (processSchemas (b :: bs)) := by
    rw [propsD_mergeSchemas, lookup_fold_propsStepF, hnil, orO_none_right]
  rw [hMl]

/-- The `properties` of a flattened non-empty-`allOf` node with pairwise
key-disjoint processed branches that are also key-disjoint from the
node's own (processed) sibling properties: the branch properties
concatenate in branch order, followed by the sibling properties. -/
theorem processSchema_consAllOf_props_append (t : Option String)
    (ps : Option (List (String × Schema))) (rq : Option (List String))
    (b : Schema) (bs : List Schema) (it : Option Schema)
    (ex : List (String × JValue))
    (hpw : (processSchemas (b :: bs)).Pairwise
      (fun a c => ∀ k ∈ (propsD a).map Prod.fst, k ∉ (propsD c).map Prod.fst))
    (hsib : ∀ k ∈ ((processSchemas (b :: bs)).flatMap propsD).map Prod.fst,
      k ∉ (processProps (ps.getD [])).map Prod.fst) :
    (processSchema (.obj t ps rq (some (b :: bs)) it ex)).propsF =
      some ((processSchemas (b :: bs)).flatMap propsD ++ processProps (ps.getD [])) := by
  rw [processSchema_obj_consAllOf, mergeSchemas_propsF]
  congr 1
  rw [List.foldl_cons, List.foldl_cons, List.foldl_nil]
  have h1 : propsStepF [] (mergeSchemas (processSchemas (b :: bs))) =
      (processSchemas (b :: bs)).flatMap propsD := by
    rw [propsStepF, jsOverride_nil_left, propsD_mergeSchemas]
    rw [fold_propsStepF_append _ [] hpw (by intro s _ k hk; simp at hk)]
    rw [List.nil_append]
  rw [h1]
  have hR : propsD (Schema.obj t (psStep ps) rq none (itStep t it) ex) =
      processProps (ps.getD []) := by
    cases ps with
    | none => rfl
    | some l => rfl
  rw [propsStepF, hR]
  refine jsOverride_append_of_disjoint _ _ ?_ ?_
  · intro k hk
    rw [lookup_eq_none_iff]
    exact hsib k hk
  · intro k hk
    rw [lookup_eq_none_iff]
    intro hc
    exact hsib k hc hk

/-! Part 2: the directory scanner `DefaultSpecScanner` (TypeScript source:
`scan`, `processFile`, `getFileType`, `parseSpec`, `isValidSpecObject`,
`extractSpecId`).  File contents are abstracted by their parse outcome;
the external `swagger2openapi.convertObj` call and the injected
`ISpecProcessor.process` are parameters of the embedding. -/

/-- Index of the last `'.'` in a character list, if any. -/
def lastDotIdx : List Char → Option Nat
  | [] => none
  | c :: tl =>
    match lastDotIdx tl with
    | some i => some (i + 1)
    | none => if c = '.' then some 0 else none

/-- Node's `path.extname` on a directory-entry name (no separators in a
`readdir` result): the suffix from the last dot, except that a name whose
only dot is its first character (a dotfile) has no extension. -/
def extname (name : String) : String :=
  match lastDotIdx name.toList with
  | none => ""
  | some 0 => ""
  | some i => String.mk (name.toList.drop i)

/-- ASCII lower-casing of a short name, character by character
(`String.prototype.toLowerCase` on an extension). -/
def lowerStr (s : String) : String := String.mk (s.toList.map Char.toLower)

/-- Result of `DefaultSpecScanner.getFileType`. -/
inductive SpecFileType where
  | json
  | yaml
  | invalid
deriving DecidableEq, Repr

/-- Embeds `DefaultSpecScanner.getFileType`: lower-cased extension `.json` is
JSON, `.yaml`/`.yml` is YAML, anything else is invalid. -/
def getFileType (p : String) : SpecFileType :=
  let ext := lowerStr (extname p)
  if ext = ".json" then .json
  else if ext = ".yaml" ∨ ext = ".yml" then .yaml
  else .invalid

/-- The `info` value of a parsed document.  `isValidSpecObject` accepts
only a non-null object (`iobj`); a JSON `null` (`inull`) and any other
primitive (`iscalar`) fail the `typeof`/null guard. -/
inductive InfoVal where
  | inull
  | iscalar
  | iobj (xSpecId : Option String) (description : Option String)
deriving DecidableEq, Repr

/-- An operation value inside a path item (only the keys the catalog
summaries read). -/
structure OpMeta where
  operationId : Option String
  summary : Option String
  description : Option String
deriving DecidableEq, Repr

/-- A parsed top-level document object, restricted to the keys this
pipeline reads: `swagger` (the 2.0 marker), `info`, `paths` (path →
method-keyed operation map, where the pseudo-keys `"parameters"` and
`"$ref"` may appear among the method names), and
`components.schemas` (name → `description`). -/
structure ODoc where
  swagger : Option String
  info : Option InfoVal
  paths : List (String × List (String × OpMeta))
  compSchemas : Option (List (String × Option String))
deriving DecidableEq, Repr

/-- The `{}` document yielded with an error result. -/
def emptyDoc : ODoc := ⟨none, none, [], none⟩

/-- A parsed file content: either a non-object value (primitive, `null`,
or an array, which carries none of the object keys) or a document
object. -/
inductive PVal where
  | scalar
  | pobj (d : ODoc)
deriving DecidableEq, Repr

/-- The error values thrown/wrapped by the scanner, by wrap structure
rather than by message text. -/
inductive JsErr where
  | emsg (s : String)
  | readFailed (filename : String)
  | parseFailed (ft : SpecFileType) (cause : JsErr)
  | convFailed (cause : String)
  | invalidSpec (filename : String)
  | processFailed (filename : String) (cause : JsErr)
  | dirReadFailed (p : String)
  | emptyPath
deriving DecidableEq, Repr

/-- Embeds `SpecScanResult`: filename, derived specId, document (empty on
failure) and optional error. -/
structure ScanResult where
  filename : String
  specId : String
  spec : ODoc
  error : Option JsErr
deriving DecidableEq, Repr

instance {e a : Type} [DecidableEq e] [DecidableEq a] : DecidableEq (Except e a) := by
  intro x y
  cases x <;> cases y
  case error.error e1 e2 =>
    exact decidable_of_iff (e1 = e2) (by constructor
                                         · intro h; rw [h]
                                         · intro h; injection h)
  case error.ok e1 v2 => exact .isFalse (fun hc => Except.noConfusion hc)
  case ok.error v1 e2 => exact .isFalse (fun hc => Except.noConfusion hc)
  case ok.ok v1 v2 =>
    exact decidable_of_iff (v1 = v2) (by constructor
                                         · intro h; rw [h]
                                         · intro h; injection h)

/-- A directory entry as the scanner sees it: a regular file abstracted
by the outcome of parsing its content with the parser its extension
selects, or a non-file entry (directory, socket, ...) whose `readFile`
fails. -/
inductive DirEntry where
  | file (name : String) (parsed : Except String PVal)
  | nonfile (name : String)
deriving DecidableEq, Repr

/-- The name of a directory entry. -/
def entryName : DirEntry → String
  | .file n _ => n
  | .nonfile n => n

/-- Embeds `isValidSpecObject`: the parsed value is an object carrying a
non-null object `info`. -/
def isValidSpecObject : PVal → Bool
  | .scalar => false
  | .pobj d =>
    match d.info with
    | some (.iobj _ _) => true
    | _ => false

/-- Embeds `extractSpecId`: `spec.info['x-spec-id'] || defaultId` (an empty
string is falsy in JavaScript and falls back to the filename). -/
def extractSpecId (d : ODoc) (defaultId : String) : String :=
  match d.info with
  | some (.iobj (some s) _) => if s = "" then defaultId else s
  | _ => defaultId

/-- Embeds `DefaultSpecScanner.parseSpec` after the raw parse: when the parsed
object carries `swagger === "2.0"`, run the `swagger2openapi` conversion
(`conv` stands for `convertObj` with `{patch: true, warnOnly: true}`);
its rejection is wrapped as a conversion failure and then as a parse
failure by the surrounding `catch`. -/
def convStep (conv : ODoc → Except String ODoc) (ft : SpecFileType) (pv : PVal) :
    Except JsErr PVal :=
  match pv with
  | .scalar => .ok .scalar
  | .pobj d =>
    if d.swagger = some "2.0" then
      match conv d with
      | .ok d' => .ok (.pobj d')
      | .error m => .error (.parseFailed ft (.convFailed m))
    else .ok (.pobj d)

/-- The tail of `DefaultSpecScanner.processFile` after a successful parse
and conversion: validate the basic shape, derive the specId, and run the
injected processor (`proc` stands for `ISpecProcessor.process`); any
failure is wrapped in the per-file `SpecScanError`. -/
def validateAndProcess (proc : ODoc → Except String ODoc) (n : String) (pv : PVal) :
    Except JsErr (Option ScanResult) :=
  match pv with
  | .scalar => .error (.processFailed n (.invalidSpec n))
  | .pobj d =>
    match d.info with
    | some (.iobj _ _) =>
      match proc d with
      | .ok pd => .ok (some ⟨n, extractSpecId d n, pd, none⟩)
      | .error m => .error (.processFailed n (.emsg m))
    | _ => .error (.processFailed n (.invalidSpec n))

/-- Embeds `DefaultSpecScanner.processFile`: unrecognized extensions are skipped
(`null`); a non-file entry fails at `readFile`; a parse failure and a
conversion failure are wrapped; then validation, specId extraction and
processing follow.  Every failure is wrapped in the per-file
`SpecScanError` ("Failed to process spec file"). -/
def processFile (proc conv : ODoc → Except String ODoc) (e : DirEntry) :
    Except JsErr (Option ScanResult) :=
  match getFileType (entryName e) with
  | .invalid => .ok none
  | ft =>
    match e with
    | .nonfile n => .error (.processFailed n (.readFailed n))
    | .file n parsed =>
      match parsed with
      | .error m => .error (.processFailed n (.parseFailed ft (.emsg m)))
      | .ok pv =>
        match convStep conv ft pv with
        | .error err => .error (.processFailed n err)
        | .ok pv' => validateAndProcess proc n pv'

/-- The error `ScanResult` yielded by `scan`'s per-file `catch`: the
filename doubles as the specId, the document is empty, and the caught
error is carried. -/
def mkErrorResult (n : String) (err : JsErr) : ScanResult :=
  ⟨n, n, emptyDoc, some err⟩

/-- The `for (const file of files)` loop of `DefaultSpecScanner.scan`:
each entry contributes nothing (skipped), one success result, or one
error result; the loop never aborts. -/
def scanEntries (proc conv : ODoc → Except String ODoc) : List DirEntry → List ScanResult
  | [] => []
  | e :: tl =>
    (match processFile proc conv e with
     | .ok none => []
     | .ok (some r) => [r]
     | .error err => [mkErrorResult (entryName e) err]) ++ scanEntries proc conv tl

/-- Embeds `DefaultSpecScanner.scan`: an empty folder path throws up front; a
`readdir` failure throws a fatal `SpecScanError`; otherwise the per-file
loop runs to completion.  The directory listing outcome stands for
`fs.readdir(folderPath)`. -/
def scan (proc conv : ODoc → Except String ODoc) (folderPath : String)
    (listing : Except String (List DirEntry)) : Except JsErr (List ScanResult) :=
  if folderPath = "" then .error .emptyPath
  else
    match listing with
    | .error _ => .error (.dirReadFailed folderPath)
    | .ok es => .ok (scanEntries proc conv es)

theorem scanEntries_append (proc conv : ODoc → Except String ODoc)
    (es1 es2 : List DirEntry) :
    scanEntries proc conv (es1 ++ es2) =
      scanEntries proc conv es1 ++ scanEntries proc conv es2 := by
  induction es1 with
  | nil => rfl
  | cons e tl ih =>
    rw [List.cons_append, scanEntries, scanEntries, ih, List.append_assoc]

/-! Part 3: `FileSystemSpecService.scanAndSave` and `saveSpec` from the
bundled service module.  Filesystem (`mkdir`/`writeFile`) outcomes are
abstracted by a success model; the `Promise.all` batch of `saveSpec`
calls is linearized in pending-operation order with every write attempted
(each settled promise has run its own `this.specs[specId] = spec`
assignment whether or not a sibling write rejected).  The cache update in
`saveSpec` (`this.specCache.set`) is elided: no claim reads the cache. -/

/-- A catalog operation summary (`path`, `method`, `description`,
`operationId`). -/
structure OpSummary where
  path : String
  method : String
  description : Option String
  operationId : Option String
deriving DecidableEq, Repr

/-- A catalog schema summary (`name`, `description`). -/
structure SchemaSummary where
  name : String
  description : Option String
deriving DecidableEq, Repr

/-- A catalog entry (`SpecCatalogEntry`): uri (specId twice plus the
constant `"specification"` type), spec description, operation summaries
and schema summaries. -/
structure CatEntry where
  specId : String
  uriType : String
  identifier : String
  description : Option String
  operations : List OpSummary
  schemas : List SchemaSummary
deriving DecidableEq, Repr

/-- The operation-summary loop of `scanAndSave`: for each path, every key
of the path item except the pseudo-methods `"parameters"` and `"$ref"`
becomes an operation summary. -/
def buildOps (paths : List (String × List (String × OpMeta))) : List OpSummary :=
  paths.flatMap (fun pi =>
    (pi.2.filter (fun kv => kv.1 ≠ "parameters" ∧ kv.1 ≠ "$ref")).map
      (fun kv => ⟨pi.1, kv.1, kv.2.description, kv.2.operationId⟩))

/-- The schema-summary loop of `scanAndSave`: one summary per
`components.schemas` entry. -/
def buildSchemaSummaries (cs : Option (List (String × Option String))) : List SchemaSummary :=
  match cs with
  | none => []
  | some l => l.map (fun kv => ⟨kv.1, kv.2⟩)

/-- Building one catalog entry inside `scanAndSave`'s per-result `try`:
reading `spec.info.description` throws when `info` is absent or `null`
(the surrounding `catch` then skips the result); a present non-object
`info` just yields an undefined description. -/
def buildEntry (spec : ODoc) (specId : String) : Option CatEntry :=
  match spec.info with
  | none => none
  | some .inull => none
  | some .iscalar =>
    some ⟨specId, "specification", specId, none, buildOps spec.paths,
      buildSchemaSummaries spec.compSchemas⟩
  | some (.iobj _ desc) =>
    some ⟨specId, "specification", specId, desc, buildOps spec.paths,
      buildSchemaSummaries spec.compSchemas⟩

/-- The in-memory state of `FileSystemSpecService` the claims read:
`this.specs` (specId → document, a JavaScript object) and
`this.catalog`. -/
structure SvcState where
  specs : List (String × ODoc)
  catalog : List CatEntry
deriving DecidableEq, Repr

/-- Filesystem outcomes for one `scanAndSave` run: whether the
`ensureDirectories` batch succeeds, whether the `writeFile` for a given
specId succeeds (covering `saveSpec`'s own `ensureDirectory` too), and
whether the catalog `writeFile` succeeds. -/
structure FsModel where
  ensureOk : Bool
  writeDocOk : String → Bool
  writeCatalogOk : Bool

/-- The error codes `scanAndSave` can surface (`SpecServiceError`): it
wraps every failure — scanner, directory creation, `saveSpec`
persistence, catalog persistence — as a `SCAN_ERROR`; the cause is kept
for the wrap structure. -/
inductive SvcErr where
  | scanScanner
  | scanInit
  | scanPersist (specId : String)
  | scanCatalogWrite
deriving DecidableEq, Repr

/-- JavaScript `this.specs[specId] = spec` on an object modelled as an
association list: an existing key keeps its position, a new key is
appended. -/
def jsSet (m : List (String × ODoc)) (k : String) (v : ODoc) : List (String × ODoc) :=
  if (m.lookup k).isSome then
    m.map (fun kv => if kv.1 = k then (k, v) else kv)
  else m ++ [(k, v)]

/-- The pending save operations `scanAndSave` collects before persisting:
scan results carrying an error are skipped (logged), and a result whose
catalog entry cannot be built (`info` unreadable) is skipped by the inner
`catch`. -/
def pendingOps (results : List ScanResult) : List (ODoc × CatEntry) :=
  results.filterMap (fun r =>
    if r.error.isSome then none
    else (buildEntry r.spec r.specId).map (fun entry => (r.spec, entry)))

/-- Embeds `FileSystemSpecService.scanAndSave`, as a transition on the service
state returning the (possibly error) outcome: drain the scanner, collect
pending operations, re-ensure directories, persist every document
(`saveSpec` updates `this.specs` as its write succeeds), then persist the
catalog and only then replace `this.catalog`.  On any failure the states
already mutated by successful `saveSpec` calls remain. -/
def scanAndSave (st : SvcState) (scanOut : Except JsErr (List ScanResult))
    (fsm : FsModel) : SvcState × Option SvcErr :=
  match scanOut with
  | .error _ => (st, some .scanScanner)
  | .ok results =>
    let pending := pendingOps results
    if ¬ fsm.ensureOk then (st, some .scanInit)
    else
      let succs := pending.filter (fun pe => fsm.writeDocOk pe.2.specId)
      let newSpecs := succs.foldl (fun m pe => jsSet m pe.2.specId pe.1) st.specs
      match pending.find? (fun pe => ! fsm.writeDocOk pe.2.specId) with
      | some pe => ({ specs := newSpecs, catalog := st.catalog }, some (.scanPersist pe.2.specId))
      | none =>
        if ¬ fsm.writeCatalogOk then
          ({ specs := newSpecs, catalog := st.catalog }, some .scanCatalogWrite)
        else
          ({ specs := newSpecs, catalog := succs.map (fun pe => pe.2) }, none)

/-! Claim theorems.  Concrete fixtures used by witnesses and
counterexamples follow first. -/

/-- A plain `{type: "string"}` schema. -/
def strSchema : Schema := .obj (some "string") none none none none []

/-- A plain `{type: "number"}` schema. -/
def numSchema : Schema := .obj (some "number") none none none none []

/-- A plain `{type: "integer"}` schema. -/
def intSchema : Schema := .obj (some "integer") none none none none []

/-- Branch `{type:"object", properties:{name}, required:["name"]}`. -/
def branchName : Schema :=
  .obj (some "object") (some [("name", strSchema)]) (some ["name"]) none none []

/-- Branch `{type:"object", properties:{email}, required:["email"]}`. -/
def branchEmail : Schema :=
  .obj (some "object") (some [("email", strSchema)]) (some ["email"]) none none []

/-- Branch `{type:"object", properties:{name, age}, required:["name"]}`. -/
def branchNameAge : Schema :=
  .obj (some "object") (some [("name", strSchema), ("age", numSchema)])
    (some ["name"]) none none []

/-- Branch `{type:"object", properties:{email, age:integer},
required:["email"]}`. -/
def branchEmailAge : Schema :=
  .obj (some "object") (some [("email", strSchema), ("age", intSchema)])
    (some ["email"]) none none []

/-- Node `{allOf: [branchName, branchEmail]}`: disjoint branches, no
siblings. -/
def disjointAllOfNode : Schema :=
  .obj none none none (some [branchName, branchEmail]) none []

/-- Node `{allOf: [branchNameAge, branchEmailAge]}`: overlapping branches. -/
def overlapAllOfNode : Schema :=
  .obj none none none (some [branchNameAge, branchEmailAge]) none []

/-- A single-branch `allOf` node that also carries its own sibling
`properties: {b}`: `{allOf: [{type:"object", properties:{a}}],
properties: {b}}`. -/
def siblingAllOfNode : Schema :=
  .obj none (some [("b", strSchema)]) none
    (some [.obj (some "object") (some [("a", strSchema)]) none none none []]) none []

/-- A node whose own `allOf` is non-empty: `{allOf: [{type:"object",
properties:{x}}]}` (used as a nested property value). -/
def nestedAllOfValue : Schema :=
  .obj none none none
    (some [.obj (some "object") (some [("x", strSchema)]) none none none []]) none []

/-- Node `{allOf: [], properties: {a: nestedAllOfValue}, description: ...}`:
an empty-`allOf` node with a property value that itself needs
flattening. -/
def emptyAllOfNode : Schema :=
  .obj none (some [("a", nestedAllOfValue)]) none (some []) none
    [("description", .jstr "d")]

/-- Claim C1 (counterexample): `siblingAllOfNode` has a single branch
(trivially pairwise-disjoint property names), yet the flattened
`properties` names are `["a", "b"]` — the node's own sibling property
`b` joins the result — and not the union `["a"]` of the branches'
properties, so the flattened `properties` is not exactly the union of
the branches' properties. -/
theorem c1_union_counterexample :
    (propsD (processSchema siblingAllOfNode)).map Prod.fst = ["a", "b"] ∧
    (([.obj (some "object") (some [("a", strSchema)]) none none none
        []].flatMap propsD).map Prod.fst = ["a"]) ∧
    (propsD (processSchema siblingAllOfNode)).map Prod.fst ≠
      ([.obj (some "object") (some [("a", strSchema)]) none none none
        []].flatMap propsD).map Prod.fst := by
  refine ⟨rfl, rfl, ?_⟩
  decide

/-- Claim C1 (amended): for a schema node with `allOf` of length ≥ 1
whose flattened branches have pairwise disjoint property-name sets that
are also disjoint from the node's own flattened sibling property names,
flattening yields a single `type: "object"` schema whose `properties`
is the concatenation of the flattened branches' properties (in branch
order) followed by the node's own flattened sibling properties, and
whose `required` is the first-occurrence-deduplicated concatenation of
the flattened branches' `required` lists followed by the node's own
`required`, the key being dropped when that union is empty. -/
theorem c1_disjoint_union (s : Schema) (l : List Schema)
    (h : s.allOfF = some l) (hne : l ≠ [])
    (hpw : (processSchemas l).Pairwise
      (fun a c => ∀ k ∈ (propsD a).map Prod.fst, k ∉ (propsD c).map Prod.fst))
    (hsib : ∀ k ∈ ((processSchemas l).flatMap propsD).map Prod.fst,
      k ∉ (processProps ((s.propsF).getD [])).map Prod.fst) :
    (processSchema s).typeF = some "object" ∧
    (processSchema s).propsF =
      some ((processSchemas l).flatMap propsD ++ processProps ((s.propsF).getD [])) ∧
    (processSchema s).reqF =
      (if jsDedup ((processSchemas l).flatMap reqD ++ (s.reqF).getD []) = []
       then none
       else some (jsDedup ((processSchemas l).flatMap reqD ++ (s.reqF).getD []))) := by
  cases s with
  | ref r => exact absurd h (by simp [Schema.allOfF])
  | obj t ps rq al it ex =>
    have hal : al = some l := h
    subst hal
    cases l with
    | nil => exact absurd rfl hne
    | cons b bs =>
      refine ⟨?_, ?_, ?_⟩
      · rw [processSchema_obj_consAllOf]
        exact mergeSchemas_typeF _
      · exact processSchema_consAllOf_props_append t ps rq b bs it ex hpw hsib
      · exact processSchema_consAllOf_reqF t ps rq b bs it ex

/-- Claim C1 (witness): the amended theorem evaluated on
`disjointAllOfNode`. -/
theorem c1_disjoint_union_witness :
    ((disjointAllOfNode.allOfF = some [branchName, branchEmail]) ∧
      [branchName, branchEmail] ≠ [] ∧
      (processSchemas [branchName, branchEmail]).Pairwise
        (fun a c => ∀ k ∈ (propsD a).map Prod.fst, k ∉ (propsD c).map Prod.fst)) ∧
    (processSchema disjointAllOfNode).typeF = some "object" ∧
    (processSchema disjointAllOfNode).propsF =
      some ((processSchemas [branchName, branchEmail]).flatMap propsD ++
        processProps ((disjointAllOfNode.propsF).getD [])) ∧
    (processSchema disjointAllOfNode).reqF =
      (if jsDedup ((processSchemas [branchName, branchEmail]).flatMap reqD ++
          (disjointAllOfNode.reqF).getD []) = []
       then none
       else some (jsDedup ((processSchemas [branchName, branchEmail]).flatMap reqD ++
          (disjointAllOfNode.reqF).getD []))) := by
  refine ⟨⟨rfl, List.cons_ne_nil _ _, by decide⟩, ?_⟩
  exact c1_disjoint_union disjointAllOfNode [branchName, branchEmail] rfl
    (List.cons_ne_nil _ _) (by decide) (by decide)

/-- Claim C2: for a node with non-empty `allOf`, each property name
resolves to the node's own (flattened) sibling definition when present,
else to the definition of the last (flattened) branch defining it; and
`required` is the deduplicated union of the flattened branches'
`required` lists followed by the node's own `required` (dropped only
when empty), never overridden. -/
theorem c2_lastWriterWins (s : Schema) (l : List Schema)
    (h : s.allOfF = some l) (hne : l ≠ []) :
    (∀ k : String,
      ((propsD (processSchema s)).lookup k) =
        orO ((processProps ((s.propsF).getD [])).lookup k)
          (lastPropDef k (processSchemas l))) ∧
    (processSchema s).reqF =
      (if jsDedup ((processSchemas l).flatMap reqD ++ (s.reqF).getD []) = []
       then none
       else some (jsDedup ((processSchemas l).flatMap reqD ++ (s.reqF).getD []))) := by
  cases s with
  | ref r => exact absurd h (by simp [Schema.allOfF])
  | obj t ps rq al it ex =>
    have hal : al = some l := h
    subst hal
    cases l with
    | nil => exact absurd rfl hne
    | cons b bs =>
      refine ⟨?_, ?_⟩
      · intro k
        exact processSchema_consAllOf_props_lookup t ps rq b bs it ex k
      · exact processSchema_consAllOf_reqF t ps rq b bs it ex

/-- Claim C2 (witness): on `overlapAllOfNode`, whose branches both
define `age`, the lookup of `age` resolves to the later branch's
definition (`{type:"integer"}`), and `required` is the union
`["name", "email"]`. -/
theorem c2_lastWriterWins_witness :
    ((overlapAllOfNode.allOfF = some [branchNameAge, branchEmailAge]) ∧
      [branchNameAge, branchEmailAge] ≠ []) ∧
    ((propsD (processSchema overlapAllOfNode)).lookup "age") =
      orO ((processProps ((overlapAllOfNode.propsF).getD [])).lookup "age")
        (lastPropDef "age" (processSchemas [branchNameAge, branchEmailAge])) ∧
    (processSchema overlapAllOfNode).reqF =
      (if jsDedup ((processSchemas [branchNameAge, branchEmailAge]).flatMap reqD ++
          (overlapAllOfNode.reqF).getD []) = []
       then none
       else some (jsDedup ((processSchemas [branchNameAge, branchEmailAge]).flatMap reqD ++
          (overlapAllOfNode.reqF).getD []))) := by
  refine ⟨⟨rfl, List.cons_ne_nil _ _⟩, ?_, ?_⟩
  · exact (c2_lastWriterWins overlapAllOfNode [branchNameAge, branchEmailAge] rfl
      (List.cons_ne_nil _ _)).1 "age"
  · exact (c2_lastWriterWins overlapAllOfNode [branchNameAge, branchEmailAge] rfl
      (List.cons_ne_nil _ _)).2

/-- Claim C3: flattening is idempotent — `processSchema` applied to a
`processSchema` output returns it unchanged. -/
theorem c3_processSchema_idempotent (s : Schema) :
    processSchema (processSchema s) = processSchema s :=
  (processSchema_idem_aux (sizeOf s) s rfl).1

/-- Claim C4 (counterexample): on `emptyAllOfNode` (`allOf: []` with a
property value `a` that itself contains a non-empty `allOf`), flattening
does not leave every other sibling key unchanged: the `properties`
sibling's value for `a` is recursively flattened (its `allOf` is gone
and its `type` became `"object"`), so the result differs from the node
with only `allOf` removed. -/
theorem c4_frame_counterexample :
    processSchema emptyAllOfNode ≠
      Schema.obj none (some [("a", nestedAllOfValue)]) none none none
        [("description", .jstr "d")] := by
  intro hc
  have h2 : ((propsD (processSchema emptyAllOfNode)).lookup "a").map Schema.typeF =
      ((propsD (Schema.obj none (some [("a", nestedAllOfValue)]) none none none
        [("description", .jstr "d")])).lookup "a").map Schema.typeF := by
    rw [hc]
  have h3 : ((propsD (processSchema emptyAllOfNode)).lookup "a").map Schema.typeF =
      some (some "object") := rfl
  have h4 : ((propsD (Schema.obj none (some [("a", nestedAllOfValue)]) none none none
      [("description", .jstr "d")])).lookup "a").map Schema.typeF = some none := rfl
  rw [h3, h4] at h2
  simp at h2

/-- Claim C4 (amended): for a node with an empty `allOf` array,
flattening removes the `allOf` key and keeps every other sibling key
present: `type`, `required` and the passthrough keys keep their values
exactly; the `properties` key keeps its presence and its property names
in order, its values being recursively flattened first (as is `items`
when `type` is `"array"`), per the bottom-up pass. -/
theorem c4_emptyAllOf_frame (t : Option String) (ps : Option (List (String × Schema)))
    (rq : Option (List String)) (it : Option Schema) (ex : List (String × JValue)) :
    (processSchema (.obj t ps rq (some []) it ex)).allOfF = none ∧
    (processSchema (.obj t ps rq (some []) it ex)).typeF = t ∧
    (processSchema (.obj t ps rq (some []) it ex)).reqF = rq ∧
    (processSchema (.obj t ps rq (some []) it ex)).extraF = ex ∧
    (processSchema (.obj t ps rq (some []) it ex)).propsF = psStep ps ∧
    (processSchema (.obj t ps rq (some []) it ex)).itemsF = itStep t it ∧
    ((processSchema (.obj t ps rq (some []) it ex)).propsF).map (List.map Prod.fst) =
      ps.map (List.map Prod.fst) := by
  rw [processSchema_obj_emptyAllOf]
  refine ⟨rfl, rfl, rfl, rfl, rfl, rfl, ?_⟩
  cases ps with
  | none => rfl
  | some l =>
    show some ((processProps l).map Prod.fst) = some (l.map Prod.fst)
    rw [processProps_keys]

/-- Claim C10: a node with non-empty `allOf` flattens to a schema whose
`type` is `"object"` and whose `properties` key is always present,
whatever `type` the branches or the node's own siblings declared. -/
theorem c10_result_always_object (s : Schema) (l : List Schema)
    (h : s.allOfF = some l) (hne : l ≠ []) :
    (processSchema s).typeF = some "object" ∧
    ((processSchema s).propsF).isSome = true := by
  cases s with
  | ref r => exact absurd h (by simp [Schema.allOfF])
  | obj t ps rq al it ex =>
    have hal : al = some l := h
    subst hal
    cases l with
    | nil => exact absurd rfl hne
    | cons b bs =>
      rw [processSchema_obj_consAllOf]
      refine ⟨mergeSchemas_typeF _, ?_⟩
      rw [mergeSchemas_propsF]
      rfl

/-- A `{type: "string", allOf: [{type:"object", properties:{a}}]}`
node: its own scalar `type` does not survive flattening. -/
def typedAllOfNode : Schema :=
  .obj (some "string") none none
    (some [.obj (some "object") (some [("a", strSchema)]) none none none []]) none []

/-- Claim C10 (witness): the sibling `type: "string"` of
`typedAllOfNode` is replaced by `"object"`, and `properties` is
present. -/
theorem c10_result_always_object_witness :
    ((typedAllOfNode.allOfF =
        some [.obj (some "object") (some [("a", strSchema)]) none none none []]) ∧
      [Schema.obj (some "object") (some [("a", strSchema)]) none none none []] ≠ []) ∧
    (processSchema typedAllOfNode).typeF = some "object" ∧
    ((processSchema typedAllOfNode).propsF).isSome = true := by
  refine ⟨⟨rfl, List.cons_ne_nil _ _⟩, ?_⟩
  exact c10_result_always_object typedAllOfNode _ rfl (List.cons_ne_nil _ _)

/-- The identity processor stand-in, used by concrete witnesses. -/
def idProc : ODoc → Except String ODoc := fun d => .ok d

/-- A minimal valid modern document (non-null object `info`). -/
def modernInfoDoc : ODoc := ⟨none, some (.iobj none none), [], none⟩

/-- A recognized file that parses and validates. -/
def goodEntry : DirEntry := .file "a.json" (.ok (.pobj modernInfoDoc))

/-- A recognized YAML file whose parse fails. -/
def badYamlEntry : DirEntry := .file "bad.yaml" (.error "unexpected token")

/-- The wrapped error `processFile` raises for `badYamlEntry`. -/
def badYamlErr : JsErr :=
  .processFailed "bad.yaml" (.parseFailed .yaml (.emsg "unexpected token"))

/-- Claim C6: when the directory listing is readable, `scan` never
raises — it returns the per-entry loop's results; a per-file
`processFile` exception surfaces as a yielded error `ScanResult`
(filename as specId, empty document, the error attached) with the
remaining entries still processed; only a listing failure raises the
fatal directory error. -/
theorem c6_perFile_errors_isolated (proc conv : ODoc → Except String ODoc)
    (p : String) (hp : p ≠ "") :
    (∀ es : List DirEntry, scan proc conv p (.ok es) = .ok (scanEntries proc conv es)) ∧
    (∀ es1 es2 : List DirEntry, ∀ e : DirEntry, ∀ err : JsErr,
      processFile proc conv e = .error err →
      scan proc conv p (.ok (es1 ++ e :: es2)) =
        .ok (scanEntries proc conv es1 ++
          mkErrorResult (entryName e) err :: scanEntries proc conv es2)) ∧
    (∀ d : String, scan proc conv p (.error d) = .error (.dirReadFailed p)) := by
  refine ⟨?_, ?_, ?_⟩
  · intro es
    rw [scan, if_neg hp]
  · intro es1 es2 e err herr
    rw [scan, if_neg hp]
    show Except.ok (scanEntries proc conv (es1 ++ e :: es2)) = _
    rw [scanEntries_append, scanEntries, herr]
    rfl
  · intro d
    rw [scan, if_neg hp]

/-- Claim C6 (witness): scanning `[goodEntry, badYamlEntry]` yields the
parse failure as an in-sequence error result. -/
theorem c6_perFile_errors_isolated_witness :
    (("specs" : String) ≠ "" ∧
      processFile idProc idProc badYamlEntry = .error badYamlErr) ∧
    scan idProc idProc "specs" (.ok ([goodEntry] ++ badYamlEntry :: [])) =
      .ok (scanEntries idProc idProc [goodEntry] ++
        mkErrorResult (entryName badYamlEntry) badYamlErr ::
          scanEntries idProc idProc []) := by
  refine ⟨⟨by decide, rfl⟩, ?_⟩
  exact (c6_perFile_errors_isolated idProc idProc "specs" (by decide)).2.1
    [goodEntry] [] badYamlEntry badYamlErr rfl

/-- A non-spec file (extension `.md`): silently skipped. -/
def readmeEntry : DirEntry := .file "README.md" (.ok .scalar)

/-- A non-file directory entry carrying a recognized extension: the
scanner still tries to read it, and reading fails. -/
def dirJsonEntry : DirEntry := .nonfile "sub.json"

/-- Claim C7 (counterexample): a non-file entry named `sub.json` is not
silently skipped — its `readFile` failure is yielded as an error
`ScanResult`, so the scanner does emit a result for a non-file entry
with a recognized extension. -/
theorem c7_nonfile_counterexample :
    scanEntries idProc idProc [dirJsonEntry] =
      [mkErrorResult "sub.json" (.processFailed "sub.json" (.readFailed "sub.json"))] ∧
    scanEntries idProc idProc [dirJsonEntry] ≠ [] := by
  exact ⟨rfl, by decide⟩

/-- Claim C7 (amended): only the extension decides skipping — an entry
(file or not) whose extension is not `.json`/`.yaml`/`.yml` contributes
no `ScanResult` at all, while a non-file entry with a recognized
extension contributes an error result (its read fails) rather than
being skipped. -/
theorem c7_extension_decides_skip (proc conv : ODoc → Except String ODoc) :
    (∀ es1 es2 : List DirEntry, ∀ e : DirEntry,
      getFileType (entryName e) = .invalid →
      scanEntries proc conv (es1 ++ e :: es2) =
        scanEntries proc conv es1 ++ scanEntries proc conv es2) ∧
    (∀ n : String, getFileType n ≠ .invalid →
      processFile proc conv (.nonfile n) =
        .error (.processFailed n (.readFailed n))) := by
  constructor
  · intro es1 es2 e he
    rw [scanEntries_append, scanEntries]
    have hskip : processFile proc conv e = .ok none := by
      rw [processFile.eq_def, he]
    rw [hskip]
    rfl
  · intro n hn
    cases hft : getFileType n with
    | invalid => exact absurd hft hn
    | json =>
      rw [processFile.eq_def]
      have he : entryName (DirEntry.nonfile n) = n := rfl
      rw [he, hft]
    | yaml =>
      rw [processFile.eq_def]
      have he : entryName (DirEntry.nonfile n) = n := rfl
      rw [he, hft]

/-- Claim C7 (witness): `README.md` contributes nothing; the non-file
`sub.json` fails with a read error. -/
theorem c7_extension_decides_skip_witness :
    (getFileType (entryName readmeEntry) = .invalid ∧
      getFileType "sub.json" ≠ .invalid) ∧
    scanEntries idProc idProc ([goodEntry] ++ readmeEntry :: []) =
      scanEntries idProc idProc [goodEntry] ++ scanEntries idProc idProc [] ∧
    processFile idProc idProc (.nonfile "sub.json") =
      .error (.processFailed "sub.json" (.readFailed "sub.json")) := by
  refine ⟨⟨rfl, by decide⟩, ?_, ?_⟩
  · exact (c7_extension_decides_skip idProc idProc).1 [goodEntry] [] readmeEntry rfl
  · exact (c7_extension_decides_skip idProc idProc).2 "sub.json" (by decide)

/-- Claim C8: for a recognized file whose parsed content is an object
with `swagger: "2.0"`, the scanner runs the tolerant Swagger-2.0
conversion (`convertObj` with `patch: true, warnOnly: true`, modelled by
`conv`) before any validation or processing — the rest of the pipeline
sees the converted document — and when the conversion rejects, the
file's outcome is the wrapped conversion error, surfacing as an error
`ScanResult` in the scan sequence, never a success. -/
theorem c8_legacy_converted_first (proc conv : ODoc → Except String ODoc)
    (n : String) (d : ODoc) (ft : SpecFileType)
    (hft : getFileType n = ft) (hinv : ft ≠ .invalid)
    (hsw : d.swagger = some "2.0") :
    (processFile proc conv (.file n (.ok (.pobj d))) =
      (match conv d with
       | .ok d2 => validateAndProcess proc n (.pobj d2)
       | .error m => .error (.processFailed n (.parseFailed ft (.convFailed m))))) ∧
    (∀ m : String, conv d = .error m →
      ∀ es1 es2 : List DirEntry,
        scanEntries proc conv (es1 ++ (.file n (.ok (.pobj d))) :: es2) =
          scanEntries proc conv es1 ++
            mkErrorResult n (.processFailed n (.parseFailed ft (.convFailed m))) ::
              scanEntries proc conv es2) := by
  have hconv : convStep conv ft (.pobj d) =
      (match conv d with
       | .ok d2 => .ok (.pobj d2)
       | .error m => .error (.parseFailed ft (.convFailed m))) := by
    show (if d.swagger = some "2.0" then _ else _) = _
    rw [if_pos hsw]
  have hmain : processFile proc conv (.file n (.ok (.pobj d))) =
      (match conv d with
       | .ok d2 => validateAndProcess proc n (.pobj d2)
       | .error m => .error (.processFailed n (.parseFailed ft (.convFailed m)))) := by
    rw [processFile.eq_def]
    have he : entryName (DirEntry.file n (.ok (.pobj d))) = n := rfl
    rw [he, hft]
    cases ft with
    | invalid => exact absurd rfl hinv
    | json =>
      show (match convStep conv .json (.pobj d) with
            | Except.error err => Except.error (JsErr.processFailed n err)
            | Except.ok pv2 => validateAndProcess proc n pv2) = _
      rw [hconv]
      cases conv d with
      | ok d2 => rfl
      | error m => rfl
    | yaml =>
      show (match convStep conv .yaml (.pobj d) with
            | Except.error err => Except.error (JsErr.processFailed n err)
            | Except.ok pv2 => validateAndProcess proc n pv2) = _
      rw [hconv]
      cases conv d with
      | ok d2 => rfl
      | error m => rfl
  refine ⟨hmain, ?_⟩
  intro m hm es1 es2
  rw [scanEntries_append, scanEntries, hmain, hm]
  rfl

/-- A legacy `swagger: "2.0"` document. -/
def legacyDoc : ODoc :=
  ⟨some "2.0", some (.iobj none none),
    [("/pets", [("get", ⟨some "listPets", none, none⟩)])], none⟩

/-- A converter stand-in that rejects even in tolerant mode. -/
def convFailFn : ODoc → Except String ODoc := fun _ => .error "conversion failed"

/-- Claim C8 (witness): a legacy file whose tolerant conversion rejects
yields exactly one error result carrying the wrapped conversion
error. -/
theorem c8_legacy_converted_first_witness :
    (getFileType "old.json" = SpecFileType.json ∧
      SpecFileType.json ≠ SpecFileType.invalid ∧
      legacyDoc.swagger = some "2.0" ∧
      convFailFn legacyDoc = .error "conversion failed") ∧
    scanEntries idProc convFailFn
        ([] ++ (DirEntry.file "old.json" (.ok (.pobj legacyDoc))) :: []) =
      scanEntries idProc convFailFn [] ++
        mkErrorResult "old.json" (.processFailed "old.json"
          (.parseFailed .json (.convFailed "conversion failed"))) ::
          scanEntries idProc convFailFn [] := by
  refine ⟨⟨rfl, by decide, rfl, rfl⟩, ?_⟩
  exact (c8_legacy_converted_first idProc convFailFn "old.json" legacyDoc .json
    rfl (by decide) rfl).2 "conversion failed" rfl [] []

/-- A minimal valid document for the service claims. -/
def svcDocB : ODoc := ⟨none, some (.iobj none none), [], none⟩

/-- A successful scan result for `svcDocB` under specId `b`. -/
def svcResB : ScanResult := ⟨"b.json", "b", svcDocB, none⟩

/-- A catalog entry left over from a previous scan. -/
def svcOldEntry : CatEntry := ⟨"old", "specification", "old", none, [], []⟩

/-- The service state before the rescan: empty document map, one old
catalog entry. -/
def svcState0 : SvcState := ⟨[], [svcOldEntry]⟩

/-- A filesystem model where every document write succeeds but the
catalog write fails. -/
def fsmCatalogFail : FsModel := ⟨true, fun _ => true, false⟩

/-- Claim C9 (counterexample): with one successful scan result whose
document write succeeds but whose catalog write fails, `scanAndSave`
fails — the old catalog is kept — yet the in-memory document map has
already been mutated by `saveSpec` (`this.specs[specId] = spec` runs
inside each save, before the catalog replacement), so the previously
held document map is not left unchanged on failure. -/
theorem c9_specs_map_counterexample :
    scanAndSave svcState0 (.ok [svcResB]) fsmCatalogFail =
      (⟨[("b", svcDocB)], [svcOldEntry]⟩, some .scanCatalogWrite) ∧
    ([("b", svcDocB)] : List (String × ODoc)) ≠ svcState0.specs := by
  exact ⟨rfl, by decide⟩

/-- Claim C9 (amended): the in-memory catalog is applied atomically —
whenever `scanAndSave` fails, `this.catalog` is exactly the previous
catalog, and on success it is exactly the new entries of the pending
operations — but the specId-to-document map is updated incrementally by
each successful `saveSpec` before the catalog swap and is not rolled
back on failure. -/
theorem c9_catalog_atomic (st : SvcState) (scanOut : Except JsErr (List ScanResult))
    (fsm : FsModel) :
    ((scanAndSave st scanOut fsm).2.isSome = true →
      (scanAndSave st scanOut fsm).1.catalog = st.catalog) ∧
    (∀ results : List ScanResult, scanOut = .ok results →
      (scanAndSave st scanOut fsm).2 = none →
      (scanAndSave st scanOut fsm).1.catalog =
        (pendingOps results).map (fun pe => pe.2)) := by
  obtain ⟨ens, wdoc, wcat⟩ := fsm
  cases scanOut with
  | error e =>
    refine ⟨fun _ => rfl, ?_⟩
    intro results hres
    exact absurd hres (by simp)
  | ok results =>
    cases ens with
    | false =>
      refine ⟨fun _ => rfl, ?_⟩
      intro results2 hres h2
      injection hres with hres2
      subst hres2
      exact absurd h2 (by simp [scanAndSave])
    | true =>
      cases hf : (pendingOps results).find? (fun pe => ! wdoc pe.2.specId) with
      | some pe =>
        constructor
        · intro _
          simp [scanAndSave, hf]
        · intro results2 hres h2
          injection hres with hres2
          subst hres2
          simp [scanAndSave, hf] at h2
      | none =>
        cases wcat with
        | false =>
          constructor
          · intro _
            simp [scanAndSave, hf]
          · intro results2 hres h2
            injection hres with hres2
            subst hres2
            simp [scanAndSave, hf] at h2
        | true =>
          constructor
          · intro h
            simp [scanAndSave, hf] at h
          · intro results2 hres h2
            injection hres with hres2
            subst hres2
            simp only [scanAndSave, hf]
            have hall : ∀ pe ∈ pendingOps results, wdoc pe.2.specId = true := by
              intro pe hpe
              have := List.find?_eq_none.mp hf pe hpe
              simpa using this
            rw [List.filter_eq_self.mpr (fun pe hpe => hall pe hpe)]
            simp

/-- Claim C9 (witness): the amended catalog-atomicity applied to the
failing run of the counterexample state — the old catalog survives the
failure. -/
theorem c9_catalog_atomic_witness :
    ((scanAndSave svcState0 (.ok [svcResB]) fsmCatalogFail).2.isSome = true) ∧
    (scanAndSave svcState0 (.ok [svcResB]) fsmCatalogFail).1.catalog =
      svcState0.catalog := by
  refine ⟨by decide, ?_⟩
  exact (c9_catalog_atomic svcState0 (.ok [svcResB]) fsmCatalogFail).1 (by decide)
